import Mathlib

/-!
# Verification of the `rocstr` bounded-string core

A shallow embedding of the `rocstr` crate (`src/rocstr.rs`): an immutable
fixed-capacity stack string `RocStr<SIZE>` backed by a byte array `inner`
and a live length `len`.

Bytes are modelled as `Nat` (values `0..255`), buffers as `List Nat`.
Rust operations that can panic (index/slice out of range, `usize`
underflow, `copy_from_slice` length mismatch, the backward boundary walk
running off the front of the buffer) are modelled as `Option`-returning
functions where `none` means the Rust code panics.
-/

namespace RocSpec

/-- `b` is a UTF-8 continuation byte.  This is the bit test
`(b as i8) < -0x40` of `extract_utf8_within`, i.e. `128 ≤ b < 192`. -/
def isCont (b : Nat) : Bool := 128 ≤ b && b < 192

/-- Byte at index `i`, defaulting to `0` out of range (all modelled
accesses are in range). -/
def nthB (l : List Nat) (i : Nat) : Nat := l.getD i 0

/-- One step of the UTF-8 accepting automaton on a leading byte: the
number of required continuation bytes and the admissible range
`[lo, hi]` of the next byte (Unicode Table 3-7; an ill-formed leading
byte yields the empty range `[1, 0]`, rejecting everything). -/
def step0 (b : Nat) : Nat × Nat × Nat :=
  if b < 0x80 then (0, 0x80, 0xBF)
  else if b < 0xC2 then (1, 1, 0)
  else if b < 0xE0 then (1, 0x80, 0xBF)
  else if b = 0xE0 then (2, 0xA0, 0xBF)
  else if b = 0xED then (2, 0x80, 0x9F)
  else if b < 0xF0 then (2, 0x80, 0xBF)
  else if b = 0xF0 then (3, 0x90, 0xBF)
  else if b < 0xF4 then (3, 0x80, 0xBF)
  else if b = 0xF4 then (3, 0x80, 0x8F)
  else (1, 1, 0)

/-- The UTF-8 accepting automaton: `need` pending continuation bytes, the
next of which must lie in `[lo, hi]`. -/
def utf8ValidSt : Nat → Nat → Nat → List Nat → Bool
  | 0, _, _, [] => true
  | _ + 1, _, _, [] => false
  | 0, _, _, b :: rest =>
    utf8ValidSt (step0 b).1 (step0 b).2.1 (step0 b).2.2 rest
  | need + 1, lo, hi, b :: rest =>
    decide (lo ≤ b) && decide (b ≤ hi) && utf8ValidSt need 0x80 0xBF rest

/-- UTF-8 well-formedness of a byte sequence (Unicode Table 3-7: ASCII,
2/3/4-byte sequences, excluding overlong forms, surrogates and code
points beyond U+10FFFF). -/
def utf8Valid (l : List Nat) : Bool := utf8ValidSt 0 0 0 l

/-- Byte length of the UTF-8 code point introduced by leading byte `b`. -/
def utf8Len (b : Nat) : Nat :=
  if b < 0x80 then 1 else if b < 0xE0 then 2 else if b < 0xF0 then 3 else 4

/-- The backward boundary walk of `extract_utf8_within`
(`while (bytes[boundary] as i8) < -0x40 { boundary -= 1 }` starting at
`i`).  `none` models the `usize` underflow panic when the walk falls off
the front of the buffer. -/
def findBack (bytes : List Nat) : Nat → Option Nat
  | 0 => if isCont (nthB bytes 0) then none else some 0
  | j + 1 => if isCont (nthB bytes (j + 1)) then findBack bytes j else some (j + 1)

/-- `extract_utf8_within(bytes, len)` (src/rocstr.rs:424): the largest
prefix of `bytes` of length at most `len` that ends on a code-point
boundary; returns the whole sequence when `len ≥ bytes.len()`.  `none`
models the panic of the backward walk on byte sequences whose scanned
region is all continuation bytes. -/
def extract_utf8_within (bytes : List Nat) (len : Nat) : Option (List Nat) :=
  if len < bytes.length then
    if isCont (nthB bytes len) = false then some (bytes.take len)
    else
      match len with
      | 0 => none
      | l + 1 => (findBack bytes l).map (fun b => bytes.take b)
  else some bytes

/-- `dst[start..start+src.len()].copy_from_slice(src)` on list `dst`. -/
def setRange (dst : List Nat) (start : Nat) (src : List Nat) : List Nat :=
  dst.take start ++ src ++ dst.drop (start + src.length)

/-- The string type: a `SIZE`-byte buffer and a live length
(src/rocstr.rs:17). -/
structure RocStr (SIZE : Nat) where
  inner : List Nat
  len : Nat
deriving DecidableEq, Repr

/-- The live bytes `storage[0..length]`: `From<&RocStr<SIZE>> for &[u8]`
(src/rocstr.rs:314). -/
def RocStr.as_bytes {SIZE : Nat} (v : RocStr SIZE) : List Nat :=
  v.inner.take v.len

/-- `From<&RocStr<SIZE>> for &str` (src/rocstr.rs:301): re-checks UTF-8
validity; the `Err` branch is `unreachable!()`, modelled as `none`. -/
def RocStr.as_str {SIZE : Nat} (v : RocStr SIZE) : Option (List Nat) :=
  if utf8Valid v.as_bytes then some v.as_bytes else none

/-- `From<&str> for RocStr<SIZE>` (src/rocstr.rs:287): scanner-truncated
copy into a zero-filled buffer. -/
def fromStr (SIZE : Nat) (s : List Nat) : Option (RocStr SIZE) :=
  (extract_utf8_within s SIZE).map
    (fun slice => ⟨setRange (List.replicate SIZE 0) 0 slice, slice.length⟩)

/-- `Default for RocStr<SIZE>` (src/rocstr.rs:267). -/
def defaultRS (SIZE : Nat) : RocStr SIZE :=
  ⟨List.replicate SIZE 0, 0⟩

/-- `RocStr::truncate` (src/rocstr.rs:247). -/
def RocStr.truncate {SIZE : Nat} (v : RocStr SIZE) (len : Nat) :
    Option (RocStr SIZE) :=
  (extract_utf8_within v.as_bytes len).map
    (fun slice => ⟨setRange (List.replicate SIZE 32) 0 slice, slice.length⟩)

/-- `RocStr::reshape::<LEN>` (src/rocstr.rs:203). -/
def RocStr.reshape {SIZE : Nat} (LEN : Nat) (v : RocStr SIZE) :
    Option (RocStr LEN) :=
  (extract_utf8_within (v.inner.take v.len) LEN).map
    (fun slice => ⟨setRange (List.replicate LEN 32) 0 slice, slice.length⟩)

/-- `Add<T: AsRef<str>> for RocStr<SIZE>` (src/rocstr.rs:366).  On
overflow the code copies the scanner prefix into `inner[self.len..SIZE]`;
`copy_from_slice` panics (`none`) unless the prefix length is exactly
`SIZE - self.len`. -/
def RocStr.add {SIZE : Nat} (a : RocStr SIZE) (rhs : List Nat) :
    Option (RocStr SIZE) :=
  if SIZE < a.len + rhs.length then
    (extract_utf8_within rhs (SIZE - a.len)).bind
      (fun slice =>
        if slice.length = SIZE - a.len then
          some ⟨setRange a.inner a.len slice, SIZE⟩
        else none)
  else some ⟨setRange a.inner a.len rhs, a.len + rhs.length⟩

/-- `Add<RocStr<LEN>> for RocStr<SIZE>` (src/rocstr.rs:391).  Note the
overflow branch scans the whole `rhs.inner` buffer, filler included. -/
def RocStr.addRoc {SIZE : Nat} {LEN : Nat} (a : RocStr SIZE)
    (b : RocStr LEN) : Option (RocStr SIZE) :=
  if SIZE < a.len + b.len then
    (extract_utf8_within b.inner (SIZE - a.len)).bind
      (fun slice =>
        if slice.length = SIZE - a.len then
          some ⟨setRange a.inner a.len slice, SIZE⟩
        else none)
  else some ⟨setRange a.inner a.len (b.inner.take b.len), a.len + b.len⟩

/-- The `for (i, frame) in frames` loop of `RocStr::replace`
(src/rocstr.rs:142-168): state is `(remaining frames, i, len, skip,
inner)`; returns the final `(len, skip, inner)`. -/
def replaceLoop (SIZE : Nat) (live frm toS : List Nat) :
    Nat → Nat → Nat → Nat → List Nat → Nat × Nat × List Nat
  | 0, _, len, skip, inner => (len, skip, inner)
  | rem + 1, i, len, skip, inner =>
    if skip = 0 then
      if (live.drop i).take frm.length = frm then
        if len + toS.length ≤ SIZE then
          replaceLoop SIZE live frm toS rem (i + 1) (len + toS.length)
            (frm.length - 1) (setRange inner len toS)
        else (SIZE, skip, setRange inner len (toS.take (SIZE - len)))
      else if len < SIZE then
        replaceLoop SIZE live frm toS rem (i + 1) (len + 1) skip
          (inner.set len (nthB live i))
      else (len, skip, inner)
    else replaceLoop SIZE live frm toS rem (i + 1) len (skip - 1) inner

/-- `RocStr::replace` (src/rocstr.rs:132).  The tail append computes
`self.len - from.len() + 1`, which underflows `usize` (a panic, modelled
`none`) when the pattern is longer than the haystack. -/
def RocStr.replace {SIZE : Nat} (v : RocStr SIZE) (frm toS : List Nat) :
    Option (RocStr SIZE) :=
  if frm = [] then some v
  else
    let live := v.inner.take v.len
    let frameCount := if frm.length ≤ v.len then v.len - frm.length + 1 else 0
    let res := replaceLoop SIZE live frm toS frameCount 0 0 0
      (List.replicate SIZE 32)
    let len := res.1
    let skip := res.2.1
    let inner := res.2.2
    if len < SIZE ∧ skip = 0 then
      if v.len < frm.length then none
      else
        let remaining := (v.inner.take v.len).drop (v.len - frm.length + 1)
        let remaining :=
          if remaining.length < SIZE - len then remaining
          else remaining.take (SIZE - len)
        some ⟨setRange inner len remaining, len + remaining.length⟩
    else some ⟨inner, len⟩

/-- Content equality between two `RocStr`s of possibly different
capacities: `PartialEq<RocStr<SIZE>> for RocStr<LEN>` (src/rocstr.rs:358).
-/
def beqRS {N M : Nat} (a : RocStr N) (b : RocStr M) : Bool :=
  a.len == b.len && a.as_bytes == b.as_bytes

/-- `PartialEq<str> for RocStr<SIZE>` (src/rocstr.rs:330). -/
def eqStrL {N : Nat} (a : RocStr N) (s : List Nat) : Bool :=
  a.len == s.length && a.as_bytes == s

/-- `PartialEq<RocStr<SIZE>> for &str` (src/rocstr.rs:350). -/
def eqStrR {N : Nat} (s : List Nat) (a : RocStr N) : Bool :=
  s.length == a.len && s == a.as_bytes

/-- The byte stream `Hash for RocStr<SIZE>` (src/rocstr.rs:322) feeds to
the hasher: the live bytes then the sentinel `0xFF`. -/
def hashStream {N : Nat} (a : RocStr N) : List Nat :=
  a.as_bytes ++ [0xFF]

/-- A hash value under an arbitrary (deterministic) hasher `f` is a
function of the fed byte stream. -/
def rocHash {N : Nat} (f : List Nat → Nat) (a : RocStr N) : Nat :=
  f (hashStream a)

end RocSpec

namespace RocSpec

/-! ## Scanner lemmas -/

theorem findBack_le {bytes : List Nat} :
    ∀ {i j : Nat}, findBack bytes i = some j → j ≤ i := by
  intro i
  induction i with
  | zero =>
    intro j h
    unfold findBack at h
    split at h
    · cases h
    · cases h; exact Nat.le_refl 0
  | succ n ih =>
    intro j h
    unfold findBack at h
    split at h
    · exact Nat.le_trans (ih h) (Nat.le_succ n)
    · cases h; exact Nat.le_refl _

theorem extract_some_shape {bytes r : List Nat} {k : Nat}
    (h : extract_utf8_within bytes k = some r) :
    r.length ≤ k ∨ (r = bytes ∧ bytes.length ≤ k) := by
  unfold extract_utf8_within at h
  split at h
  · rename_i hlt
    split at h
    · left
      cases h
      simp only [List.length_take]
      omega
    · cases k with
      | zero => cases h
      | succ l =>
        have h' : Option.map (fun b => List.take b bytes) (findBack bytes l) = some r := h
        rcases hf : findBack bytes l with _ | j
        · rw [hf] at h'; cases h'
        · rw [hf] at h'
          simp only [Option.map_some'] at h'
          cases h'
          left
          simp only [List.length_take]
          have := findBack_le hf
          omega
  · rename_i hge
    cases h
    exact Or.inr ⟨rfl, by omega⟩

theorem extract_fix {bytes r : List Nat} {k : Nat}
    (h : extract_utf8_within bytes k = some r) :
    extract_utf8_within r k = some r := by
  have hle : r.length ≤ k := by
    rcases extract_some_shape h with h1 | ⟨he, h2⟩
    · exact h1
    · rw [he]; exact h2
  unfold extract_utf8_within
  rw [if_neg (by omega)]

/-- **C6**: the boundary scanner is idempotent at a fixed limit:
`extract_within(extract_within(b, k), k) == extract_within(b, k)` for all
byte sequences `b` and limits `k` (composition in the partiality monad:
when the inner call panics, both sides panic alike). -/
theorem extract_utf8_within_idempotent (b : List Nat) (k : Nat) :
    (extract_utf8_within b k).bind (fun r => extract_utf8_within r k) =
      extract_utf8_within b k := by
  rcases h : extract_utf8_within b k with _ | r
  · rfl
  · exact extract_fix h

theorem findBack_spec {bytes : List Nat} :
    ∀ {i j : Nat}, findBack bytes i = some j →
      j ≤ i ∧ isCont (nthB bytes j) = false ∧
      ∀ m, j < m → m ≤ i → isCont (nthB bytes m) = true := by
  intro i
  induction i with
  | zero =>
    intro j h
    unfold findBack at h
    split at h
    · cases h
    · rename_i hc
      cases h
      refine ⟨Nat.le_refl 0, by simpa using hc, ?_⟩
      intro m h1 h2
      omega
  | succ n ih =>
    intro j h
    unfold findBack at h
    split at h
    · rename_i hc
      obtain ⟨hle, hnc, hall⟩ := ih h
      refine ⟨Nat.le_trans hle (Nat.le_succ n), hnc, ?_⟩
      intro m h1 h2
      rcases Nat.lt_or_ge m (n + 1) with hm | hm
      · exact hall m h1 (by omega)
      · have : m = n + 1 := by omega
        rw [this]
        exact hc
    · rename_i hc
      cases h
      refine ⟨Nat.le_refl _, by simpa using hc, ?_⟩
      intro m h1 h2
      omega

theorem findBack_none_all {bytes : List Nat} :
    ∀ {i : Nat}, findBack bytes i = none →
      ∀ j, j ≤ i → isCont (nthB bytes j) = true := by
  intro i
  induction i with
  | zero =>
    intro h j hj
    unfold findBack at h
    split at h
    · rename_i hc
      have : j = 0 := by omega
      rw [this]
      exact hc
    · cases h
  | succ n ih =>
    intro h j hj
    unfold findBack at h
    split at h
    · rename_i hc
      rcases Nat.lt_or_ge j (n + 1) with hm | hm
      · exact ih h j (by omega)
      · have : j = n + 1 := by omega
        rw [this]
        exact hc
    · cases h

/-! ## UTF-8 well-formedness structure -/

theorem utf8ValidSt_state0 (lo hi lo' hi' : Nat) (l : List Nat) :
    utf8ValidSt 0 lo hi l = utf8ValidSt 0 lo' hi' l := by
  cases l <;> rfl

theorem utf8ValidSt_dead : ∀ (l : List Nat), utf8ValidSt 1 1 0 l = false := by
  intro l
  cases l with
  | nil => rfl
  | cons b rest =>
    simp only [utf8ValidSt, Bool.and_eq_true]
    simp only [Bool.and_eq_false_iff, decide_eq_false_iff_not]
    omega

theorem step0_of_cont {b : Nat} (h : isCont b = true) : step0 b = (1, 1, 0) := by
  simp only [isCont, Bool.and_eq_true, decide_eq_true_eq] at h
  unfold step0
  rw [if_neg (by omega), if_pos (by omega)]

theorem valid_head_not_cont {b : Nat} {rest : List Nat}
    (h : utf8ValidSt 0 0 0 (b :: rest) = true) : isCont b = false := by
  by_contra hc
  have hc' : isCont b = true := by
    revert hc
    cases isCont b <;> simp
  have h' : utf8ValidSt (step0 b).1 (step0 b).2.1 (step0 b).2.2 rest = true := h
  rw [step0_of_cont hc'] at h'
  rw [utf8ValidSt_dead] at h'
  cases h'

/-- Admissible continuation ranges: either a genuine continuation-byte
range or the empty (dead) range. -/
def stInv (lo hi : Nat) : Prop := (0x80 ≤ lo ∧ hi ≤ 0xBF) ∨ hi < lo

theorem step0_stInv (b : Nat) : stInv (step0 b).2.1 (step0 b).2.2 := by
  unfold step0 stInv
  split_ifs <;> simp

/-- Cutting a recognised byte sequence at a non-continuation byte (or at
its end) leaves a recognised sequence, uniformly in the automaton state.
-/
theorem st_take : ∀ (l : List Nat) (need lo hi j : Nat), stInv lo hi →
    utf8ValidSt need lo hi l = true → j ≤ l.length →
    (j = l.length ∨ isCont (nthB l j) = false) →
    utf8ValidSt need lo hi (l.take j) = true := by
  intro l
  induction l with
  | nil =>
    intro need lo hi j _ h hj _
    have hj0 : j = 0 := by simpa using hj
    rw [hj0]
    exact h
  | cons b rest ih =>
    intro need lo hi j hinv h hj hb
    cases need with
    | zero =>
      cases j with
      | zero => rfl
      | succ m =>
        have h' : utf8ValidSt (step0 b).1 (step0 b).2.1 (step0 b).2.2 rest
            = true := h
        rw [List.take_succ_cons]
        show utf8ValidSt (step0 b).1 (step0 b).2.1 (step0 b).2.2
          (rest.take m) = true
        refine ih (step0 b).1 (step0 b).2.1 (step0 b).2.2 m
          (step0_stInv b) h' (by simpa using hj) ?_
        rcases hb with he | hc
        · left
          simp at he ⊢
          omega
        · right
          simpa [nthB] using hc
    | succ n =>
      simp only [utf8ValidSt, Bool.and_eq_true, decide_eq_true_eq] at h
      obtain ⟨⟨hlo, hhi⟩, hr⟩ := h
      cases j with
      | zero =>
        exfalso
        rcases hb with he | hc
        · simp at he
        · rcases hinv with ⟨h1, h2⟩ | h3
          · have : isCont b = true := by
              simp only [isCont, Bool.and_eq_true, decide_eq_true_eq]
              omega
            rw [show nthB (b :: rest) 0 = b from rfl] at hc
            rw [this] at hc
            cases hc
          · omega
      | succ m =>
        rw [List.take_succ_cons]
        simp only [utf8ValidSt, Bool.and_eq_true, decide_eq_true_eq]
        refine ⟨⟨hlo, hhi⟩, ?_⟩
        refine ih n 0x80 0xBF m (Or.inl ⟨Nat.le_refl _, Nat.le_refl _⟩)
          hr (by simpa using hj) ?_
        rcases hb with he | hc
        · left
          simp at he ⊢
          omega
        · right
          simpa [nthB] using hc

/-- Cutting a valid sequence at a non-continuation byte (or at its end)
preserves validity. -/
theorem utf8Valid_take {l : List Nat} (h : utf8Valid l = true) {j : Nat}
    (hj : j ≤ l.length) (hb : j = l.length ∨ isCont (nthB l j) = false) :
    utf8Valid (l.take j) = true := by
  unfold utf8Valid at h ⊢
  rw [utf8ValidSt_state0 0 0 0x80 0xBF] at h ⊢
  exact st_take l 0 0x80 0xBF j (Or.inl ⟨Nat.le_refl _, Nat.le_refl _⟩) h hj hb

/-- In state `(need, lo, hi)` the next `need` bytes of a recognised
sequence are continuation bytes, and the byte after them (if any) is not.
-/
theorem st_cont_positions : ∀ (l : List Nat) (need lo hi : Nat),
    stInv lo hi → utf8ValidSt need lo hi l = true →
    need ≤ l.length ∧ (∀ i, i < need → isCont (nthB l i) = true) ∧
    (need < l.length → isCont (nthB l need) = false) := by
  intro l
  induction l with
  | nil =>
    intro need lo hi _ h
    cases need with
    | zero => exact ⟨Nat.le_refl _, by omega, by simp⟩
    | succ n => cases h
  | cons b rest ih =>
    intro need lo hi hinv h
    cases need with
    | zero =>
      refine ⟨Nat.zero_le _, by omega, fun _ => ?_⟩
      exact valid_head_not_cont (by
        rw [utf8ValidSt_state0 0 0 lo hi]
        exact h)
    | succ n =>
      simp only [utf8ValidSt, Bool.and_eq_true, decide_eq_true_eq] at h
      obtain ⟨⟨hlo, hhi⟩, hr⟩ := h
      have hcb : isCont b = true := by
        rcases hinv with ⟨h1, h2⟩ | h3
        · simp only [isCont, Bool.and_eq_true, decide_eq_true_eq]
          omega
        · omega
      obtain ⟨ihlen, ihcont, ihbound⟩ :=
        ih n 0x80 0xBF (Or.inl ⟨Nat.le_refl _, Nat.le_refl _⟩) hr
      refine ⟨by simp; omega, ?_, ?_⟩
      · intro i hi2
        cases i with
        | zero => exact hcb
        | succ m => exact ihcont m (by omega)
      · intro hlt
        have := ihbound (by simp at hlt; omega)
        simpa [nthB] using this

/-- The byte length of the leading code point, in terms of the automaton.
-/
theorem step0_utf8Len {b : Nat} (hne : step0 b ≠ (1, 1, 0)) :
    utf8Len b = (step0 b).1 + 1 := by
  unfold step0 at hne ⊢
  unfold utf8Len
  split_ifs at hne ⊢ <;> first | rfl | omega | (exfalso; exact hne rfl)

theorem nthB_zero (b : Nat) (l : List Nat) : nthB (b :: l) 0 = b := rfl

theorem nthB_succ (b : Nat) (l : List Nat) (i : Nat) :
    nthB (b :: l) (i + 1) = nthB l i := rfl

theorem valid_head {l : List Nat} (h : utf8Valid l = true) (hne : l ≠ []) :
    isCont (nthB l 0) = false := by
  cases l with
  | nil => cases hne rfl
  | cons b rest => exact valid_head_not_cont h

/-! ## The scanner on valid input -/

theorem extract_spec_ge {bytes : List Nat} {limit : Nat}
    (hge : bytes.length ≤ limit) :
    extract_utf8_within bytes limit = some bytes := by
  unfold extract_utf8_within
  rw [if_neg (by omega)]

theorem extract_spec_noncont {bytes : List Nat} {limit : Nat}
    (hlt : limit < bytes.length) (hnc : isCont (nthB bytes limit) = false) :
    extract_utf8_within bytes limit = some (bytes.take limit) := by
  unfold extract_utf8_within
  rw [if_pos hlt, if_pos hnc]

theorem extract_spec_cont {bytes : List Nat} {limit : Nat}
    (h : utf8Valid bytes = true) (hlt : limit < bytes.length)
    (hc : isCont (nthB bytes limit) = true) :
    ∃ j, 1 ≤ limit ∧ findBack bytes (limit - 1) = some j ∧
      extract_utf8_within bytes limit = some (bytes.take j) ∧
      j ≤ limit - 1 ∧ isCont (nthB bytes j) = false ∧
      ∀ m, j < m → m ≤ limit - 1 → isCont (nthB bytes m) = true := by
  have hne : bytes ≠ [] := by
    intro e
    rw [e] at hlt
    simp at hlt
  have h0 := valid_head h hne
  have hlim : 1 ≤ limit := by
    rcases Nat.eq_zero_or_pos limit with h0' | h1
    · rw [h0'] at hc
      rw [hc] at h0
      cases h0
    · exact h1
  obtain ⟨l, rfl⟩ : ∃ l, limit = l + 1 := ⟨limit - 1, by omega⟩
  rcases hf : findBack bytes l with _ | j
  · exfalso
    have := findBack_none_all hf 0 (Nat.zero_le l)
    rw [this] at h0
    cases h0
  · obtain ⟨hle, hnc, hall⟩ := findBack_spec hf
    refine ⟨j, hlim, by simpa using hf, ?_, by omega, hnc, ?_⟩
    · unfold extract_utf8_within
      rw [if_pos hlt, if_neg (by rw [hc]; simp)]
      show Option.map (fun b => bytes.take b) (findBack bytes l)
        = some (bytes.take j)
      rw [hf]
      rfl
    · intro m h1 h2
      exact hall m h1 (by omega)

/-- **C5**: for valid UTF-8 `bytes` and any `limit`: when
`limit ≥ bytes.length` the scanner returns the whole sequence; when
`bytes[limit]` is not a continuation byte the prefix length is exactly
`limit`; otherwise the prefix length is the largest index `≤ limit - 1`
holding a non-continuation byte. -/
theorem extract_utf8_within_characterization :
    ∀ (bytes : List Nat) (limit : Nat), utf8Valid bytes = true →
      (bytes.length ≤ limit → extract_utf8_within bytes limit = some bytes) ∧
      (limit < bytes.length → isCont (nthB bytes limit) = false →
        ∃ r, extract_utf8_within bytes limit = some r ∧ r.length = limit) ∧
      (limit < bytes.length → isCont (nthB bytes limit) = true →
        ∃ r j, extract_utf8_within bytes limit = some r ∧ r.length = j ∧
          j ≤ limit - 1 ∧ isCont (nthB bytes j) = false ∧
          ∀ m, j < m → m ≤ limit - 1 → isCont (nthB bytes m) = true) := by
  intro bytes limit hv
  refine ⟨fun hge => extract_spec_ge hge, fun hlt hnc => ?_, fun hlt hc => ?_⟩
  · refine ⟨bytes.take limit, extract_spec_noncont hlt hnc, ?_⟩
    rw [List.length_take]
    omega
  · obtain ⟨j, hlim, hf, hex, hle, hnc, hall⟩ := extract_spec_cont hv hlt hc
    refine ⟨bytes.take j, j, hex, ?_, hle, hnc, hall⟩
    rw [List.length_take]
    omega

/-- Witness for C5 on `"Lö"` at limit `2` (which falls inside `ö`). -/
theorem extract_utf8_within_characterization_witness :
    utf8Valid [76, 195, 182] = true ∧ 2 < 3 ∧
      isCont (nthB [76, 195, 182] 2) = true ∧
      (∃ r j, extract_utf8_within [76, 195, 182] 2 = some r ∧ r.length = j ∧
        j ≤ 1 ∧ isCont (nthB [76, 195, 182] j) = false ∧
        ∀ m, j < m → m ≤ 1 → isCont (nthB [76, 195, 182] m) = true) :=
  ⟨by decide, by decide, by decide,
    (extract_utf8_within_characterization [76, 195, 182] 2 (by decide)).2.2
      (by decide) (by decide)⟩

/-- **C4** (counterexample): at `bytes = "ö" = [0xC3, 0xB6]` (valid UTF-8,
non-empty) and `limit = 1 > 0` the scanner returns the empty prefix,
refuting "non-empty whenever `limit > 0` and `bytes` is non-empty". -/
theorem extract_nonempty_counterexample :
    utf8Valid [195, 182] = true ∧ 0 < 1 ∧ ([195, 182] : List Nat) ≠ [] ∧
      extract_utf8_within [195, 182] 1 = some [] := by
  refine ⟨by decide, by decide, by decide, ?_⟩
  decide

/-- **C4** (amended): for valid UTF-8 `bytes` and any `limit`, the scanner
succeeds with a valid UTF-8 prefix, and the prefix is non-empty whenever
`bytes` is non-empty and `limit` is at least the byte length of the first
code point of `bytes` (rather than merely `limit > 0`). -/
theorem extract_valid_and_nonempty :
    ∀ (bytes : List Nat) (limit : Nat), utf8Valid bytes = true →
      ∃ r, extract_utf8_within bytes limit = some r ∧ utf8Valid r = true ∧
        (bytes ≠ [] → utf8Len (nthB bytes 0) ≤ limit → r ≠ []) := by
  intro bytes limit hv
  rcases Nat.lt_or_ge limit bytes.length with hlt | hge
  · rcases hcont : isCont (nthB bytes limit) with _ | _
    · refine ⟨bytes.take limit, extract_spec_noncont hlt hcont,
        utf8Valid_take hv (by omega) (Or.inr hcont), ?_⟩
      intro hne hL
      have h1 : 1 ≤ utf8Len (nthB bytes 0) := by
        unfold utf8Len
        split_ifs <;> omega
      intro he
      have h2 : (bytes.take limit).length = 0 := by rw [he]; rfl
      rw [List.length_take] at h2
      omega
    · obtain ⟨j, hlim, hf, hex, hle, hnc, hall⟩ :=
        extract_spec_cont hv hlt hcont
      refine ⟨bytes.take j, hex,
        utf8Valid_take hv (by omega) (Or.inr hnc), ?_⟩
      intro hne hL he
      cases bytes with
      | nil => exact hne rfl
      | cons b rest =>
        have h' : utf8ValidSt (step0 b).1 (step0 b).2.1 (step0 b).2.2 rest
            = true := hv
        have hdead : step0 b ≠ (1, 1, 0) := by
          intro he'
          rw [he'] at h'
          rw [utf8ValidSt_dead] at h'
          cases h'
        have hLen := step0_utf8Len hdead
        obtain ⟨hlen1, hcont1, hbound1⟩ :=
          st_cont_positions rest (step0 b).1 _ _ (step0_stInv b) h'
        rw [nthB_zero] at hL
        rw [hLen] at hL
        have hj0 : j = 0 := by
          cases j with
          | zero => rfl
          | succ m =>
            rw [List.take_succ_cons] at he
            cases he
        rw [hj0] at hall
        have hlb : (step0 b).1 < rest.length := by
          simp only [List.length_cons] at hlt
          omega
        have hb2 : isCont (nthB rest (step0 b).1) = false := hbound1 hlb
        rcases Nat.lt_or_ge ((step0 b).1 + 1) limit with hc2 | hc2
        · have h3 := hall ((step0 b).1 + 1) (by omega) (by omega)
          rw [nthB_succ] at h3
          rw [hb2] at h3
          cases h3
        · have he2 : (step0 b).1 + 1 = limit := by omega
          rw [← he2] at hcont
          rw [nthB_succ] at hcont
          rw [hb2] at hcont
          cases hcont
  · exact ⟨bytes, extract_spec_ge hge, hv, fun hne _ => hne⟩

/-- Witness for the amended C4 on `"Lö"` at limit `2`. -/
theorem extract_valid_and_nonempty_witness :
    utf8Valid [76, 195, 182] = true ∧
      (∃ r, extract_utf8_within [76, 195, 182] 2 = some r ∧
        utf8Valid r = true ∧
        (([76, 195, 182] : List Nat) ≠ [] →
          utf8Len (nthB [76, 195, 182] 0) ≤ 2 → r ≠ [])) :=
  ⟨by decide, extract_valid_and_nonempty [76, 195, 182] 2 (by decide)⟩

/-! ## Round-trip, equality, hashing, observational equivalence -/

/-- **C7**: for every capacity `N` and valid UTF-8 text `t` with
`t.length ≤ N`, constructing from `t` and viewing as text yields `t`. -/
theorem fromStr_as_str_roundtrip :
    ∀ (N : Nat) (t : List Nat), utf8Valid t = true → t.length ≤ N →
      ∃ v : RocStr N, fromStr N t = some v ∧ v.as_str = some t := by
  intro N t hv hle
  refine ⟨⟨setRange (List.replicate N 0) 0 t, t.length⟩, ?_, ?_⟩
  · unfold fromStr
    rw [extract_spec_ge hle]
    rfl
  · have hb : RocStr.as_bytes (⟨setRange (List.replicate N 0) 0 t, t.length⟩
        : RocStr N) = t := by
      unfold RocStr.as_bytes setRange
      simp only [List.take_zero, List.nil_append, Nat.zero_add]
      rw [List.take_left]
    unfold RocStr.as_str
    rw [hb, hv]
    rfl

/-- Witness for C7 at `N = 3`, `t = "a"`. -/
theorem fromStr_as_str_roundtrip_witness :
    utf8Valid [97] = true ∧ List.length [97] ≤ 3 ∧
      ∃ v : RocStr 3, fromStr 3 [97] = some v ∧ v.as_str = some [97] :=
  ⟨by decide, by decide, fromStr_as_str_roundtrip 3 [97] (by decide) (by decide)⟩

/-- **C9**: content-equal values (any capacities) feed identical byte
streams (live bytes then the sentinel `0xFF`) to the hasher, so every
deterministic hasher assigns them equal hashes. -/
theorem eq_implies_hashStream_eq :
    ∀ (N M : Nat) (a : RocStr N) (b : RocStr M), beqRS a b = true →
      hashStream a = hashStream b ∧
      ∀ f : List Nat → Nat, rocHash f a = rocHash f b := by
  intro N M a b h
  simp only [beqRS, Bool.and_eq_true, beq_iff_eq] at h
  have hs : hashStream a = hashStream b := by
    unfold hashStream
    rw [h.2]
  refine ⟨hs, fun f => ?_⟩
  unfold rocHash
  rw [hs]

/-- Witness for C9: `"a"` stored at capacities 2 and 3 with different
filler bytes. -/
theorem eq_implies_hashStream_eq_witness :
    beqRS (⟨[97, 0], 1⟩ : RocStr 2) (⟨[97, 32, 32], 1⟩ : RocStr 3) = true ∧
      hashStream (⟨[97, 0], 1⟩ : RocStr 2)
        = hashStream (⟨[97, 32, 32], 1⟩ : RocStr 3) :=
  ⟨by decide, (eq_implies_hashStream_eq 2 3 _ _ (by decide)).1⟩

/-- **C10**: two values of the same capacity with equal length and equal
live bytes are observationally indistinguishable: equality against any
`RocStr` (any capacity) or string, the hash byte stream, and the
view-as-text / view-as-bytes projections all agree, whatever the filler
bytes past `len`. -/
theorem content_determines_observations :
    ∀ (N : Nat) (a b : RocStr N), a.len = b.len → a.as_bytes = b.as_bytes →
      (∀ (M : Nat) (c : RocStr M), beqRS a c = beqRS b c ∧
        beqRS c a = beqRS c b) ∧
      (∀ s : List Nat, eqStrL a s = eqStrL b s ∧ eqStrR s a = eqStrR s b) ∧
      hashStream a = hashStream b ∧ a.as_str = b.as_str ∧
      a.as_bytes = b.as_bytes := by
  intro N a b h1 h2
  refine ⟨fun M c => ?_, fun s => ?_, ?_, ?_, h2⟩
  · unfold beqRS
    rw [h1, h2]
    exact ⟨rfl, rfl⟩
  · unfold eqStrL eqStrR
    rw [h1, h2]
    exact ⟨rfl, rfl⟩
  · unfold hashStream
    rw [h2]
  · unfold RocStr.as_str
    rw [h2]

/-- Witness for C10: `"ab"` at capacity 4 built by text construction
(zero filler) versus by `truncate` (space filler). -/
theorem content_determines_observations_witness :
    fromStr 4 [97, 98] = some (⟨[97, 98, 0, 0], 2⟩ : RocStr 4) ∧
      RocStr.truncate (⟨[97, 98, 99, 100], 4⟩ : RocStr 4) 2
        = some (⟨[97, 98, 32, 32], 2⟩ : RocStr 4) ∧
      hashStream (⟨[97, 98, 0, 0], 2⟩ : RocStr 4)
        = hashStream (⟨[97, 98, 32, 32], 2⟩ : RocStr 4) ∧
      RocStr.as_str (⟨[97, 98, 0, 0], 2⟩ : RocStr 4)
        = RocStr.as_str (⟨[97, 98, 32, 32], 2⟩ : RocStr 4) ∧
      beqRS (⟨[97, 98, 0, 0], 2⟩ : RocStr 4) (⟨[97, 98], 2⟩ : RocStr 2)
        = beqRS (⟨[97, 98, 32, 32], 2⟩ : RocStr 4) (⟨[97, 98], 2⟩ : RocStr 2) :=
  ⟨by decide, by decide,
    (content_determines_observations 4 _ _ (by decide) (by decide)).2.2.1,
    (content_determines_observations 4 _ _ (by decide) (by decide)).2.2.2.1,
    ((content_determines_observations 4 _ _ (by decide) (by decide)).1
      2 ⟨[97, 98], 2⟩).1⟩

/-! ## The three code defects -/

/-- **C1** (code bug): `RocStr::<1>::from("a").replace("a", "ö")` cuts the
replacement at a raw byte, producing live bytes `[0xC3]` — not valid
UTF-8, so `as_str` on the result reaches the `unreachable!()`. -/
theorem replace_invalid_utf8_bug :
    fromStr 1 [97] = some (⟨[97], 1⟩ : RocStr 1) ∧
      RocStr.replace (⟨[97], 1⟩ : RocStr 1) [97] [195, 182]
        = some (⟨[195], 1⟩ : RocStr 1) ∧
      utf8Valid (RocStr.as_bytes (⟨[195], 1⟩ : RocStr 1)) = false ∧
      RocStr.as_str (⟨[195], 1⟩ : RocStr 1) = none := by
  decide

/-- **C2** (code bug): `RocStr::<2>::from("a") + "ö"` panics: the overflow
branch calls `copy_from_slice` on `inner[1..2]` with the scanner prefix
`extract_utf8_within("ö", 1) = []`, a length mismatch.  Both `Add`
implementations share the defect. -/
theorem add_panic_bug :
    fromStr 2 [97] = some (⟨[97, 0], 1⟩ : RocStr 2) ∧
      utf8Valid [195, 182] = true ∧
      RocStr.add (⟨[97, 0], 1⟩ : RocStr 2) [195, 182] = none ∧
      fromStr 2 [195, 182] = some (⟨[195, 182], 2⟩ : RocStr 2) ∧
      RocStr.addRoc (⟨[97, 0], 1⟩ : RocStr 2) (⟨[195, 182], 2⟩ : RocStr 2)
        = none := by
  decide

/-- **C3** (code bug): `RocStr::<16>::from("").replace("ab", "x")` panics:
the tail append computes `self.len - from.len() + 1 = 0 - 2 + 1`, a
`usize` underflow. -/
theorem replace_underflow_bug :
    fromStr 16 [] = some (⟨List.replicate 16 0, 0⟩ : RocStr 16) ∧
      RocStr.replace (⟨List.replicate 16 0, 0⟩ : RocStr 16) [97, 98] [120]
        = none := by
  decide

/-! ## Numeric formatting (src/rocstr.rs:445-578, 778-862) -/

/-- `Zero::zero_as_rocstr` (src/rocstr.rs:448): `'0'` in a space-filled
buffer, length 1. -/
def zero_as_rocstr (SIZE : Nat) : RocStr SIZE :=
  ⟨(List.replicate SIZE 32).set 0 48, 1⟩

/-- `next_char` (src/rocstr.rs:485): divide by ten and map the remainder
`value - (value / 10) * 10` to its ASCII digit (the `unreachable!()` arm
is genuinely unreachable since the remainder is below ten). -/
def next_char (v : Nat) : Nat × Nat :=
  (v / 10, 48 + (v - v / 10 * 10))

/-- The digit loop of `from_unsigned`/`from_signed` (src/rocstr.rs:537 and
567): `while value > 0 { len += 1; buffer[SIZE - len] = char; … }`.
`none` models the `buffer[SIZE - len]` underflow panic when the value has
more digits than `SIZE`. -/
def pushDigits (SIZE : Nat) : Nat → Nat → List Nat → Option (Nat × List Nat)
  | v, len, buffer =>
    if h : v = 0 then some (len, buffer)
    else if SIZE < len + 1 then none
    else
      pushDigits SIZE (v / 10) (len + 1)
        (buffer.set (SIZE - (len + 1)) (next_char v).2)
termination_by v => v
decreasing_by exact Nat.div_lt_self (by omega) (by omega)

/-- `from_unsigned` (src/rocstr.rs:557). -/
def from_unsigned (SIZE : Nat) (v : Nat) : Option (RocStr SIZE) :=
  if v = 0 then some (zero_as_rocstr SIZE)
  else
    (pushDigits SIZE v 0 (List.replicate SIZE 32)).map
      (fun p => ⟨p.2.drop (SIZE - p.1) ++ List.replicate (SIZE - p.1) 32,
        p.1⟩)

/-- `from_signed` (src/rocstr.rs:510): strip the sign, run the digit loop
on the magnitude (the callers below divert each type's minimum value
before negation, so `natAbs` matches the Rust `-value` exactly), then
prepend `'-'`. -/
def from_signed (SIZE : Nat) (v : Int) : Option (RocStr SIZE) :=
  if v = 0 then some (zero_as_rocstr SIZE)
  else
    (pushDigits SIZE v.natAbs 0 (List.replicate SIZE 32)).bind
      (fun p =>
        if v < 0 then
          if SIZE < p.1 + 1 then none
          else
            some ⟨((p.2.set (SIZE - (p.1 + 1)) 45).drop (SIZE - (p.1 + 1)))
              ++ List.replicate (SIZE - (p.1 + 1)) 32, p.1 + 1⟩
        else
          some ⟨p.2.drop (SIZE - p.1) ++ List.replicate (SIZE - p.1) 32,
            p.1⟩)

/-- `ROCSTR_MIN_I8` (src/rocstr.rs:464): the literal `"-128"`. -/
def ROCSTR_MIN_I8 : RocStr 4 := ⟨[45, 49, 50, 56], 4⟩

/-- `ROCSTR_MIN_I16` (src/rocstr.rs:468): the literal `"-32768"`. -/
def ROCSTR_MIN_I16 : RocStr 6 := ⟨[45, 51, 50, 55, 54, 56], 6⟩

/-- `ROCSTR_MIN_I32` (src/rocstr.rs:472): the literal `"-2147483648"`. -/
def ROCSTR_MIN_I32 : RocStr 11 :=
  ⟨[45, 50, 49, 52, 55, 52, 56, 51, 54, 52, 56], 11⟩

/-- `ROCSTR_MIN_I64` (src/rocstr.rs:476): `"-9223372036854775808"`. -/
def ROCSTR_MIN_I64 : RocStr 20 :=
  ⟨[45, 57, 50, 50, 51, 51, 55, 50, 48, 51, 54, 56, 53, 52, 55, 55, 53,
    56, 48, 56], 20⟩

/-- `ROCSTR_MIN_ISIZE` (src/rocstr.rs:480): `"-9223372036854775808"`. -/
def ROCSTR_MIN_ISIZE : RocStr 20 :=
  ⟨[45, 57, 50, 50, 51, 51, 55, 50, 48, 51, 54, 56, 53, 52, 55, 55, 53,
    56, 48, 56], 20⟩

/-- `From<u8> for RocStr<3>` (src/rocstr.rs:778). -/
def fromU8 (v : Nat) : Option (RocStr 3) := from_unsigned 3 v

/-- `From<u16> for RocStr<5>` (src/rocstr.rs:784). -/
def fromU16 (v : Nat) : Option (RocStr 5) := from_unsigned 5 v

/-- `From<u32> for RocStr<10>` (src/rocstr.rs:790). -/
def fromU32 (v : Nat) : Option (RocStr 10) := from_unsigned 10 v

/-- `From<u64> for RocStr<20>` (src/rocstr.rs:796). -/
def fromU64 (v : Nat) : Option (RocStr 20) := from_unsigned 20 v

/-- `From<u128> for RocStr<39>` (src/rocstr.rs:802). -/
def fromU128 (v : Nat) : Option (RocStr 39) := from_unsigned 39 v

/-- `From<usize> for RocStr<20>` (src/rocstr.rs:808; 64-bit platform). -/
def fromUsize (v : Nat) : Option (RocStr 20) := from_unsigned 20 v

/-- `From<i8> for RocStr<4>` (src/rocstr.rs:814). -/
def fromI8 (v : Int) : Option (RocStr 4) :=
  if v = -128 then some ROCSTR_MIN_I8 else from_signed 4 v

/-- `From<i16> for RocStr<6>` (src/rocstr.rs:824). -/
def fromI16 (v : Int) : Option (RocStr 6) :=
  if v = -32768 then some ROCSTR_MIN_I16 else from_signed 6 v

/-- `From<i32> for RocStr<11>` (src/rocstr.rs:834). -/
def fromI32 (v : Int) : Option (RocStr 11) :=
  if v = -2147483648 then some ROCSTR_MIN_I32 else from_signed 11 v

/-- `From<i64> for RocStr<20>` (src/rocstr.rs:844). -/
def fromI64 (v : Int) : Option (RocStr 20) :=
  if v = -9223372036854775808 then some ROCSTR_MIN_I64
  else from_signed 20 v

/-- `From<isize> for RocStr<20>` (src/rocstr.rs:854; 64-bit platform). -/
def fromIsize (v : Int) : Option (RocStr 20) :=
  if v = -9223372036854775808 then some ROCSTR_MIN_ISIZE
  else from_signed 20 v

/-- Little-endian decimal digit characters of `v` (fuel-bounded; any fuel
`≥ v` is exact). -/
def decRevAux : Nat → Nat → List Nat
  | 0, _ => []
  | fuel + 1, v => if v = 0 then [] else (48 + v % 10) :: decRevAux fuel (v / 10)

/-- Little-endian decimal digit characters of `v` (empty for zero). -/
def decDigitsRev (v : Nat) : List Nat := decRevAux v v

/-- The decimal ASCII representation of a natural number. -/
def decimalStr (v : Nat) : List Nat :=
  if v = 0 then [48] else (decDigitsRev v).reverse

/-- The decimal ASCII representation of an integer: a minus sign followed
by the magnitude digits when negative. -/
def decimalStrI (v : Int) : List Nat :=
  if v < 0 then 45 :: decimalStr v.natAbs else decimalStr v.natAbs

/-- Parse decimal ASCII (most significant digit first). -/
def parseDec (l : List Nat) : Nat :=
  l.foldl (fun a c => a * 10 + (c - 48)) 0

/-- Parse decimal ASCII with an optional leading minus sign. -/
def parseDecI (l : List Nat) : Int :=
  match l with
  | 45 :: r => -(parseDec r : Int)
  | _ => (parseDec l : Int)

/-! ## Decimal representation lemmas -/

theorem decRevAux_zero : ∀ fuel : Nat, decRevAux fuel 0 = [] := by
  intro fuel
  cases fuel with
  | zero => rfl
  | succ n => simp [decRevAux]

theorem decRevAux_fuel : ∀ (f1 : Nat) {f2 v : Nat}, v ≤ f1 → v ≤ f2 →
    decRevAux f1 v = decRevAux f2 v := by
  intro f1
  induction f1 with
  | zero =>
    intro f2 v h1 _
    have : v = 0 := by omega
    rw [this, decRevAux_zero, decRevAux_zero]
  | succ n ih =>
    intro f2 v h1 h2
    rcases Nat.eq_zero_or_pos v with hv | hv
    · rw [hv, decRevAux_zero, decRevAux_zero]
    · cases f2 with
      | zero => omega
      | succ m =>
        show (if v = 0 then [] else (48 + v % 10) :: decRevAux n (v / 10))
          = (if v = 0 then [] else (48 + v % 10) :: decRevAux m (v / 10))
        rw [if_neg (by omega), if_neg (by omega)]
        have hd : v / 10 < v := Nat.div_lt_self (by omega) (by omega)
        rw [@ih m (v / 10) (by omega) (by omega)]

theorem decDigitsRev_pos {v : Nat} (h : 0 < v) :
    decDigitsRev v = (48 + v % 10) :: decDigitsRev (v / 10) := by
  unfold decDigitsRev
  cases v with
  | zero => omega
  | succ n =>
    show (if n + 1 = 0 then [] else
      (48 + (n + 1) % 10) :: decRevAux n ((n + 1) / 10)) = _
    rw [if_neg (by omega)]
    have hd : (n + 1) / 10 < n + 1 := Nat.div_lt_self (by omega) (by omega)
    rw [@decRevAux_fuel n ((n + 1) / 10) ((n + 1) / 10) (by omega)
      (Nat.le_refl _)]

theorem parseDec_snoc (l : List Nat) (c : Nat) :
    parseDec (l ++ [c]) = parseDec l * 10 + (c - 48) := by
  unfold parseDec
  rw [List.foldl_append]
  rfl

theorem parseDec_decDigitsRev : ∀ v : Nat,
    parseDec (decDigitsRev v).reverse = v := by
  intro v
  induction v using Nat.strong_induction_on with
  | _ v ih =>
    rcases Nat.eq_zero_or_pos v with hv | hv
    · rw [hv]
      rfl
    · rw [decDigitsRev_pos hv, List.reverse_cons, parseDec_snoc]
      have hd : v / 10 < v := Nat.div_lt_self (by omega) (by omega)
      rw [ih (v / 10) hd]
      omega

theorem parseDec_decimalStr (v : Nat) : parseDec (decimalStr v) = v := by
  unfold decimalStr
  split_ifs with h
  · rw [h]
    rfl
  · exact parseDec_decDigitsRev v

theorem decDigitsRev_len_le : ∀ (k : Nat) {v : Nat}, v < 10 ^ k →
    (decDigitsRev v).length ≤ k := by
  intro k
  induction k with
  | zero =>
    intro v h
    have : v = 0 := by simpa using h
    rw [this]
    simp [decDigitsRev, decRevAux_zero]
  | succ n ih =>
    intro v h
    rcases Nat.eq_zero_or_pos v with hv | hv
    · rw [hv]
      simp [decDigitsRev, decRevAux_zero]
    · rw [decDigitsRev_pos hv]
      have hdiv : v / 10 < 10 ^ n := by
        rw [Nat.div_lt_iff_lt_mul (by omega)]
        calc v < 10 ^ (n + 1) := h
        _ = 10 ^ n * 10 := by ring
      simpa using ih hdiv

theorem decimalStr_len_le {v k : Nat} (hv : v < 10 ^ k) (hk : 1 ≤ k) :
    (decimalStr v).length ≤ k := by
  unfold decimalStr
  split_ifs with h
  · simpa using hk
  · rw [List.length_reverse]
    exact decDigitsRev_len_le k hv

theorem decDigitsRev_mem : ∀ (v c : Nat), c ∈ decDigitsRev v →
    48 ≤ c ∧ c ≤ 57 := by
  intro v
  induction v using Nat.strong_induction_on with
  | _ v ih =>
    intro c hc
    rcases Nat.eq_zero_or_pos v with hv | hv
    · rw [hv] at hc
      simp [decDigitsRev, decRevAux_zero] at hc
    · rw [decDigitsRev_pos hv] at hc
      rcases List.mem_cons.mp hc with he | hm
      · have : v % 10 < 10 := Nat.mod_lt _ (by omega)
        omega
      · exact ih (v / 10) (Nat.div_lt_self (by omega) (by omega)) c hm

theorem decimalStr_mem {v c : Nat} (hc : c ∈ decimalStr v) :
    48 ≤ c ∧ c ≤ 57 := by
  unfold decimalStr at hc
  split_ifs at hc with h
  · rcases List.mem_singleton.mp hc with rfl
    omega
  · exact decDigitsRev_mem v c (List.mem_reverse.mp hc)

theorem decimalStr_ne_nil (v : Nat) : decimalStr v ≠ [] := by
  unfold decimalStr
  split_ifs with h
  · simp
  · intro he
    have : (decDigitsRev v).reverse.length = 0 := by rw [he]; rfl
    rw [List.length_reverse] at this
    rcases Nat.eq_zero_or_pos v with hv | hv
    · exact h hv
    · rw [decDigitsRev_pos hv] at this
      simp at this

theorem parseDecI_cons_ne {c : Nat} {r : List Nat} (h : c ≠ 45) :
    parseDecI (c :: r) = (parseDec (c :: r) : Int) := by
  unfold parseDecI
  split
  · rename_i heq
    cases heq
    exact absurd rfl h
  · rfl

theorem parseDecI_decimalStrI (v : Int) :
    parseDecI (decimalStrI v) = v := by
  unfold decimalStrI
  split_ifs with hneg
  · show parseDecI (45 :: decimalStr v.natAbs) = v
    have : parseDecI (45 :: decimalStr v.natAbs)
        = -(parseDec (decimalStr v.natAbs) : Int) := rfl
    rw [this, parseDec_decimalStr]
    omega
  · rcases hd : decimalStr v.natAbs with _ | ⟨c, r⟩
    · exact absurd hd (decimalStr_ne_nil _)
    · have hc : 48 ≤ c ∧ c ≤ 57 := decimalStr_mem (by rw [hd]; simp)
      rw [parseDecI_cons_ne (by omega), ← hd, parseDec_decimalStr]
      omega

theorem drop_set_cons : ∀ (l : List Nat) (i x : Nat), i < l.length →
    (l.set i x).drop i = x :: l.drop (i + 1) := by
  intro l
  induction l with
  | nil =>
    intro i x h
    simp at h
  | cons a t ih =>
    intro i x h
    cases i with
    | zero => rfl
    | succ m =>
      show (t.set m x).drop m = x :: t.drop (m + 1)
      exact ih m x (by simpa using h)

theorem next_char_snd (v : Nat) : (next_char v).2 = 48 + v % 10 := by
  unfold next_char
  omega

/-- The digit loop writes the digits of `v`, most significant first, into
`buffer[SIZE - len - digits .. SIZE - len]`, leaving the rest alone. -/
theorem pushDigits_spec : ∀ (v SIZE len : Nat) (buffer : List Nat),
    buffer.length = SIZE → len + (decDigitsRev v).length ≤ SIZE →
    ∃ buffer', pushDigits SIZE v len buffer
        = some (len + (decDigitsRev v).length, buffer') ∧
      buffer'.length = SIZE ∧
      buffer'.drop (SIZE - (len + (decDigitsRev v).length))
        = (decDigitsRev v).reverse ++ buffer.drop (SIZE - len) := by
  intro v
  induction v using Nat.strong_induction_on with
  | _ v ih =>
    intro SIZE len buffer hlen hle
    rcases Nat.eq_zero_or_pos v with hv | hv
    · subst hv
      refine ⟨buffer, ?_, hlen, ?_⟩
      · unfold pushDigits
        rw [dif_pos rfl]
        simp [decDigitsRev, decRevAux_zero]
      · simp [decDigitsRev, decRevAux_zero]
    · have hcons := decDigitsRev_pos hv
      have hd1 : 1 ≤ (decDigitsRev v).length := by
        rw [hcons]
        simp
      have hdiv : v / 10 < v := Nat.div_lt_self (by omega) (by omega)
      have hstep : pushDigits SIZE v len buffer
          = pushDigits SIZE (v / 10) (len + 1)
            (buffer.set (SIZE - (len + 1)) (next_char v).2) := by
        conv_lhs => rw [pushDigits]
        rw [dif_neg (by omega), if_neg (by omega)]
      obtain ⟨buffer', heq, hblen, hdrop⟩ :=
        ih (v / 10) hdiv SIZE (len + 1)
          (buffer.set (SIZE - (len + 1)) (next_char v).2)
          (by rw [List.length_set]; exact hlen)
          (by rw [hcons] at hle; simp at hle ⊢; omega)
      have hcount : len + 1 + (decDigitsRev (v / 10)).length
          = len + (decDigitsRev v).length := by
        rw [hcons]
        simp
        omega
      refine ⟨buffer', ?_, hblen, ?_⟩
      · rw [hstep, heq, hcount]
      · rw [← hcount, hdrop]
        have hidx : SIZE - (len + 1) < buffer.length := by omega
        rw [drop_set_cons buffer _ _ hidx]
        have hidx2 : SIZE - (len + 1) + 1 = SIZE - len := by omega
        rw [hidx2, hcons, List.reverse_cons, next_char_snd]
        simp

/-- `from_unsigned` succeeds and yields exactly the decimal representation
whenever it fits the capacity. -/
theorem from_unsigned_spec {SIZE v : Nat}
    (h : (decimalStr v).length ≤ SIZE) (hS : 1 ≤ SIZE) :
    ∃ r : RocStr SIZE, from_unsigned SIZE v = some r ∧
      r.as_bytes = decimalStr v ∧ r.len = (decimalStr v).length ∧
      r.inner.length = SIZE := by
  rcases Nat.eq_zero_or_pos v with hv | hv
  · subst hv
    refine ⟨zero_as_rocstr SIZE, ?_, ?_, ?_, ?_⟩
    · unfold from_unsigned
      rw [if_pos rfl]
    · unfold zero_as_rocstr RocStr.as_bytes
      show ((List.replicate SIZE 32).set 0 48).take 1 = decimalStr 0
      cases SIZE with
      | zero => omega
      | succ n => rfl
    · rfl
    · unfold zero_as_rocstr
      show ((List.replicate SIZE 32).set 0 48).length = SIZE
      rw [List.length_set, List.length_replicate]
  · have hds : decimalStr v = (decDigitsRev v).reverse := by
      unfold decimalStr
      rw [if_neg (by omega)]
    have hlen : (decDigitsRev v).length ≤ SIZE := by
      rw [hds, List.length_reverse] at h
      exact h
    obtain ⟨buffer', heq, hblen, hdrop⟩ :=
      pushDigits_spec v SIZE 0 (List.replicate SIZE 32)
        (List.length_replicate _ _) (by omega)
    simp only [Nat.zero_add] at heq hdrop
    have hdrop2 : buffer'.drop (SIZE - (decDigitsRev v).length)
        = (decDigitsRev v).reverse := by
      rw [hdrop]
      simp [List.drop_replicate]
    refine ⟨⟨buffer'.drop (SIZE - (decDigitsRev v).length)
        ++ List.replicate (SIZE - (decDigitsRev v).length) 32,
      (decDigitsRev v).length⟩, ?_, ?_, ?_, ?_⟩
    · unfold from_unsigned
      rw [if_neg (by omega), heq]
      rfl
    · unfold RocStr.as_bytes
      show (buffer'.drop (SIZE - (decDigitsRev v).length)
          ++ List.replicate (SIZE - (decDigitsRev v).length) 32).take
        (decDigitsRev v).length = decimalStr v
      rw [hdrop2, hds]
      have : (decDigitsRev v).length = (decDigitsRev v).reverse.length := by
        rw [List.length_reverse]
      rw [this, List.take_left]
    · show (decDigitsRev v).length = (decimalStr v).length
      rw [hds, List.length_reverse]
    · show (buffer'.drop (SIZE - (decDigitsRev v).length)
          ++ List.replicate (SIZE - (decDigitsRev v).length) 32).length
        = SIZE
      rw [List.length_append, List.length_drop, List.length_replicate,
        hblen]
      omega

/-- `from_signed` succeeds and yields exactly the signed decimal
representation whenever it fits the capacity. -/
theorem from_signed_spec {SIZE : Nat} {v : Int}
    (h : (decimalStrI v).length ≤ SIZE) (hS : 1 ≤ SIZE) :
    ∃ r : RocStr SIZE, from_signed SIZE v = some r ∧
      r.as_bytes = decimalStrI v ∧ r.len = (decimalStrI v).length := by
  rcases lt_trichotomy v 0 with hneg | hzero | hpos
  · -- negative: minus sign plus magnitude digits
    have hm : 0 < v.natAbs := by omega
    have hdsI : decimalStrI v = 45 :: decimalStr v.natAbs := by
      unfold decimalStrI
      rw [if_pos hneg]
    have hds : decimalStr v.natAbs = (decDigitsRev v.natAbs).reverse := by
      unfold decimalStr
      rw [if_neg (by omega)]
    have hd1 : (decDigitsRev v.natAbs).length + 1 ≤ SIZE := by
      rw [hdsI] at h
      simp only [List.length_cons] at h
      rw [hds, List.length_reverse] at h
      omega
    obtain ⟨buffer', heq, hblen, hdrop⟩ :=
      pushDigits_spec v.natAbs SIZE 0 (List.replicate SIZE 32)
        (List.length_replicate _ _) (by omega)
    simp only [Nat.zero_add] at heq hdrop
    have hdrop2 : buffer'.drop (SIZE - (decDigitsRev v.natAbs).length)
        = (decDigitsRev v.natAbs).reverse := by
      rw [hdrop]
      simp [List.drop_replicate]
    set d := (decDigitsRev v.natAbs).length with hd
    have hset : ((buffer'.set (SIZE - (d + 1)) 45).drop (SIZE - (d + 1)))
        = 45 :: buffer'.drop (SIZE - d) := by
      rw [drop_set_cons buffer' _ _ (by omega)]
      have : SIZE - (d + 1) + 1 = SIZE - d := by omega
      rw [this]
    refine ⟨⟨((buffer'.set (SIZE - (d + 1)) 45).drop (SIZE - (d + 1)))
        ++ List.replicate (SIZE - (d + 1)) 32, d + 1⟩, ?_, ?_, ?_⟩
    · unfold from_signed
      rw [if_neg (by omega), heq]
      show (if v < 0 then _ else _) = _
      rw [if_pos hneg, if_neg (by omega)]
    · unfold RocStr.as_bytes
      show (((buffer'.set (SIZE - (d + 1)) 45).drop (SIZE - (d + 1)))
          ++ List.replicate (SIZE - (d + 1)) 32).take (d + 1)
        = decimalStrI v
      rw [hset, hdrop2, hdsI, hds]
      have hlen45 : (45 :: (decDigitsRev v.natAbs).reverse).length
          = d + 1 := by
        simp [hd]
      rw [← hlen45, List.take_left]
    · show d + 1 = (decimalStrI v).length
      rw [hdsI, hds]
      simp [hd]
  · -- zero
    subst hzero
    refine ⟨zero_as_rocstr SIZE, ?_, ?_, ?_⟩
    · unfold from_signed
      rw [if_pos rfl]
    · unfold zero_as_rocstr RocStr.as_bytes
      show ((List.replicate SIZE 32).set 0 48).take 1 = decimalStrI 0
      cases SIZE with
      | zero => omega
      | succ n => rfl
    · rfl
  · -- positive: same shape as the unsigned path
    have hm : 0 < v.natAbs := by omega
    have hdsI : decimalStrI v = decimalStr v.natAbs := by
      unfold decimalStrI
      rw [if_neg (by omega)]
    have hds : decimalStr v.natAbs = (decDigitsRev v.natAbs).reverse := by
      unfold decimalStr
      rw [if_neg (by omega)]
    have hd1 : (decDigitsRev v.natAbs).length ≤ SIZE := by
      rw [hdsI, hds, List.length_reverse] at h
      exact h
    obtain ⟨buffer', heq, hblen, hdrop⟩ :=
      pushDigits_spec v.natAbs SIZE 0 (List.replicate SIZE 32)
        (List.length_replicate _ _) (by omega)
    simp only [Nat.zero_add] at heq hdrop
    have hdrop2 : buffer'.drop (SIZE - (decDigitsRev v.natAbs).length)
        = (decDigitsRev v.natAbs).reverse := by
      rw [hdrop]
      simp [List.drop_replicate]
    set d := (decDigitsRev v.natAbs).length with hd
    refine ⟨⟨buffer'.drop (SIZE - d) ++ List.replicate (SIZE - d) 32,
      d⟩, ?_, ?_, ?_⟩
    · unfold from_signed
      rw [if_neg (by omega), heq]
      show (if v < 0 then _ else _) = _
      rw [if_neg (by omega)]
    · unfold RocStr.as_bytes
      show (buffer'.drop (SIZE - d)
          ++ List.replicate (SIZE - d) 32).take d = decimalStrI v
      rw [hdrop2, hdsI, hds]
      have : d = (decDigitsRev v.natAbs).reverse.length := by
        simp [hd]
      rw [this, List.take_left]
    · show d = (decimalStrI v).length
      rw [hdsI, hds]
      simp [hd]

theorem decimalStrI_len_le {v : Int} {k : Nat} (h : v.natAbs < 10 ^ k)
    (hk : 1 ≤ k) : (decimalStrI v).length ≤ k + 1 := by
  unfold decimalStrI
  split_ifs with hneg
  · simp only [List.length_cons]
    have := decimalStr_len_le h hk
    omega
  · have := decimalStr_len_le h hk
    omega

theorem unsigned_clause {C : Nat} (v : Nat) (hC : 1 ≤ C)
    (h10 : v < 10 ^ C) :
    ∃ r : RocStr C, from_unsigned C v = some r ∧
      r.as_bytes = decimalStr v ∧ parseDec r.as_bytes = v := by
  obtain ⟨r, h1, h2, _, _⟩ :=
    @from_unsigned_spec C v (decimalStr_len_le h10 hC) hC
  refine ⟨r, h1, h2, ?_⟩
  rw [h2]
  exact parseDec_decimalStr v

theorem signed_clause {C : Nat} (v : Int) (hC : 2 ≤ C)
    (h10 : v.natAbs < 10 ^ (C - 1)) :
    ∃ r : RocStr C, from_signed C v = some r ∧
      r.as_bytes = decimalStrI v ∧ parseDecI r.as_bytes = v := by
  have hlen : (decimalStrI v).length ≤ C := by
    have := decimalStrI_len_le h10 (by omega)
    omega
  obtain ⟨r, h1, h2, _⟩ := @from_signed_spec C v hlen (by omega)
  refine ⟨r, h1, h2, ?_⟩
  rw [h2]
  exact parseDecI_decimalStrI v

/-- **C8**: every integer `From` conversion yields exactly the decimal
representation, so parsing it back returns the value; zero yields `"0"`,
negative values a minus sign followed by the magnitude digits, and each
signed type's minimum value the exact literal constant. -/
theorem numeric_roundtrip :
    (∀ v : Nat, v < 2 ^ 8 → ∃ r : RocStr 3, fromU8 v = some r ∧
      r.as_bytes = decimalStr v ∧ parseDec r.as_bytes = v) ∧
    (∀ v : Nat, v < 2 ^ 16 → ∃ r : RocStr 5, fromU16 v = some r ∧
      r.as_bytes = decimalStr v ∧ parseDec r.as_bytes = v) ∧
    (∀ v : Nat, v < 2 ^ 32 → ∃ r : RocStr 10, fromU32 v = some r ∧
      r.as_bytes = decimalStr v ∧ parseDec r.as_bytes = v) ∧
    (∀ v : Nat, v < 2 ^ 64 → ∃ r : RocStr 20, fromU64 v = some r ∧
      r.as_bytes = decimalStr v ∧ parseDec r.as_bytes = v) ∧
    (∀ v : Nat, v < 2 ^ 128 → ∃ r : RocStr 39, fromU128 v = some r ∧
      r.as_bytes = decimalStr v ∧ parseDec r.as_bytes = v) ∧
    (∀ v : Nat, v < 2 ^ 64 → ∃ r : RocStr 20, fromUsize v = some r ∧
      r.as_bytes = decimalStr v ∧ parseDec r.as_bytes = v) ∧
    (∀ v : Int, -(2 ^ 7) ≤ v → v < 2 ^ 7 → ∃ r : RocStr 4,
      fromI8 v = some r ∧ r.as_bytes = decimalStrI v ∧
      parseDecI r.as_bytes = v) ∧
    (∀ v : Int, -(2 ^ 15) ≤ v → v < 2 ^ 15 → ∃ r : RocStr 6,
      fromI16 v = some r ∧ r.as_bytes = decimalStrI v ∧
      parseDecI r.as_bytes = v) ∧
    (∀ v : Int, -(2 ^ 31) ≤ v → v < 2 ^ 31 → ∃ r : RocStr 11,
      fromI32 v = some r ∧ r.as_bytes = decimalStrI v ∧
      parseDecI r.as_bytes = v) ∧
    (∀ v : Int, -(2 ^ 63) ≤ v → v < 2 ^ 63 → ∃ r : RocStr 20,
      fromI64 v = some r ∧ r.as_bytes = decimalStrI v ∧
      parseDecI r.as_bytes = v) ∧
    (∀ v : Int, -(2 ^ 63) ≤ v → v < 2 ^ 63 → ∃ r : RocStr 20,
      fromIsize v = some r ∧ r.as_bytes = decimalStrI v ∧
      parseDecI r.as_bytes = v) ∧
    decimalStr 0 = [48] ∧
    (∀ v : Int, v < 0 → decimalStrI v = 45 :: decimalStr v.natAbs) ∧
    (fromI8 (-128) = some ROCSTR_MIN_I8 ∧
      ROCSTR_MIN_I8.as_bytes = decimalStrI (-128)) ∧
    (fromI16 (-32768) = some ROCSTR_MIN_I16 ∧
      ROCSTR_MIN_I16.as_bytes = decimalStrI (-32768)) ∧
    (fromI32 (-2147483648) = some ROCSTR_MIN_I32 ∧
      ROCSTR_MIN_I32.as_bytes = decimalStrI (-2147483648)) ∧
    (fromI64 (-9223372036854775808) = some ROCSTR_MIN_I64 ∧
      ROCSTR_MIN_I64.as_bytes = decimalStrI (-9223372036854775808)) ∧
    (fromIsize (-9223372036854775808) = some ROCSTR_MIN_ISIZE ∧
      ROCSTR_MIN_ISIZE.as_bytes = decimalStrI (-9223372036854775808)) := by
  refine ⟨?_, ?_, ?_, ?_, ?_, ?_, ?_, ?_, ?_, ?_, ?_, rfl, ?_, ?_, ?_,
    ?_, ?_, ?_⟩
  · intro v hv
    refine unsigned_clause v (by omega) ?_
    have h1 : (2 : Nat) ^ 8 = 256 := by norm_num
    have h2 : (10 : Nat) ^ 3 = 1000 := by norm_num
    omega
  · intro v hv
    refine unsigned_clause v (by omega) ?_
    have h1 : (2 : Nat) ^ 16 = 65536 := by norm_num
    have h2 : (10 : Nat) ^ 5 = 100000 := by norm_num
    omega
  · intro v hv
    refine unsigned_clause v (by omega) ?_
    have h1 : (2 : Nat) ^ 32 = 4294967296 := by norm_num
    have h2 : (10 : Nat) ^ 10 = 10000000000 := by norm_num
    omega
  · intro v hv
    refine unsigned_clause v (by omega) ?_
    have h1 : (2 : Nat) ^ 64 = 18446744073709551616 := by norm_num
    have h2 : (10 : Nat) ^ 20 = 100000000000000000000 := by norm_num
    omega
  · intro v hv
    refine unsigned_clause v (by omega) ?_
    have h1 : (2 : Nat) ^ 128
        = 340282366920938463463374607431768211456 := by norm_num
    have h2 : (10 : Nat) ^ 39
        = 1000000000000000000000000000000000000000 := by norm_num
    omega
  · intro v hv
    refine unsigned_clause v (by omega) ?_
    have h1 : (2 : Nat) ^ 64 = 18446744073709551616 := by norm_num
    have h2 : (10 : Nat) ^ 20 = 100000000000000000000 := by norm_num
    omega
  · intro v hlo hhi
    by_cases hmin : v = -128
    · subst hmin
      exact ⟨ROCSTR_MIN_I8, by decide, by decide, by decide⟩
    · have hstep : fromI8 v = from_signed 4 v := by
        unfold fromI8
        rw [if_neg hmin]
      rw [hstep]
      refine signed_clause v (by omega) ?_
      have h1 : (2 : Int) ^ 7 = 128 := by norm_num
      have h2 : (10 : Nat) ^ (4 - 1) = 1000 := by norm_num
      omega
  · intro v hlo hhi
    by_cases hmin : v = -32768
    · subst hmin
      exact ⟨ROCSTR_MIN_I16, by decide, by decide, by decide⟩
    · have hstep : fromI16 v = from_signed 6 v := by
        unfold fromI16
        rw [if_neg hmin]
      rw [hstep]
      refine signed_clause v (by omega) ?_
      have h1 : (2 : Int) ^ 15 = 32768 := by norm_num
      have h2 : (10 : Nat) ^ (6 - 1) = 100000 := by norm_num
      omega
  · intro v hlo hhi
    by_cases hmin : v = -2147483648
    · subst hmin
      exact ⟨ROCSTR_MIN_I32, by decide, by decide, by decide⟩
    · have hstep : fromI32 v = from_signed 11 v := by
        unfold fromI32
        rw [if_neg hmin]
      rw [hstep]
      refine signed_clause v (by omega) ?_
      have h1 : (2 : Int) ^ 31 = 2147483648 := by norm_num
      have h2 : (10 : Nat) ^ (11 - 1) = 10000000000 := by norm_num
      omega
  · intro v hlo hhi
    by_cases hmin : v = -9223372036854775808
    · subst hmin
      exact ⟨ROCSTR_MIN_I64, by decide, by decide, by decide⟩
    · have hstep : fromI64 v = from_signed 20 v := by
        unfold fromI64
        rw [if_neg hmin]
      rw [hstep]
      refine signed_clause v (by omega) ?_
      have h1 : (2 : Int) ^ 63 = 9223372036854775808 := by norm_num
      have h2 : (10 : Nat) ^ (20 - 1) = 10000000000000000000 := by
        norm_num
      omega
  · intro v hlo hhi
    by_cases hmin : v = -9223372036854775808
    · subst hmin
      exact ⟨ROCSTR_MIN_ISIZE, by decide, by decide, by decide⟩
    · have hstep : fromIsize v = from_signed 20 v := by
        unfold fromIsize
        rw [if_neg hmin]
      rw [hstep]
      refine signed_clause v (by omega) ?_
      have h1 : (2 : Int) ^ 63 = 9223372036854775808 := by norm_num
      have h2 : (10 : Nat) ^ (20 - 1) = 10000000000000000000 := by
        norm_num
      omega
  · intro v hv
    unfold decimalStrI
    rw [if_pos hv]
  · exact ⟨by decide, by decide⟩
  · exact ⟨by decide, by decide⟩
  · exact ⟨by decide, by decide⟩
  · exact ⟨by decide, by decide⟩
  · exact ⟨by decide, by decide⟩

/-- Witness for C8: `u8 = 255` and `i64 = -42` round-trip. -/
theorem numeric_roundtrip_witness :
    ((255 : Nat) < 2 ^ 8 ∧ ∃ r : RocStr 3, fromU8 255 = some r ∧
      r.as_bytes = decimalStr 255 ∧ parseDec r.as_bytes = 255) ∧
    ((-(2 ^ 63) : Int) ≤ -42 ∧ (-42 : Int) < 2 ^ 63 ∧
      ∃ r : RocStr 20, fromI64 (-42) = some r ∧
        r.as_bytes = decimalStrI (-42) ∧ parseDecI r.as_bytes = -42) :=
  ⟨⟨by norm_num, numeric_roundtrip.1 255 (by norm_num)⟩,
    ⟨by norm_num, by norm_num,
      numeric_roundtrip.2.2.2.2.2.2.2.2.2.1 (-42) (by norm_num)
        (by norm_num)⟩⟩

end RocSpec
